import Mathlib

/-!
# Verification of `koota-tree-queries`

A shallow embedding of the tree-query engine from `src/tree-query.ts`
(`createTreeQuery`, `createTreeQueryFilter`) together with proofs of the
specification claims.

Modelling conventions:

* Entities are `Nat` (opaque comparable tokens in the source).
* Attribute types (koota `Trait`s) are `Nat` tokens.
* The world is an opaque type `W`; the Attribute Store primitive
  `world.query(hash)` is modelled as an explicit function
  `wq : W → List (TreeElem W) → List Nat` passed to the executor
  (`cacheQuery` merely records the component list, so a query hash is
  identified with its component list here).
* User relationship predicates are opaque functions
  `Nat → Nat → W → Bool`, exactly as the source treats them.
* The random id generator `genId` is modelled as a monotonic counter.
  Ids are only required to be unique within one compilation (the spec
  explicitly allows a counter); the collision-retry loop of the source
  exists only to establish uniqueness.
* JavaScript object aliasing in the compiler (the shared
  `childQueryObjects` array that is cleared by recursive calls while the
  caller iterates it, and in-place mutation of `nextParentQuery`) is
  modelled with an explicit slot heap and a live index-based iteration,
  mirroring the semantics of JS array iterators.
* Unbounded recursion in the compiler is modelled with fuel; the
  executor and the pairwise filter are structurally recursive.
-/

/-- A relationship predicate as supplied by the caller: parent entity id,
candidate child entity id, world handle. -/
abbrev Cond (W : Type) := Nat → Nat → W → Bool

/-- An element of a query specification (`QueryTree` array element in the
source): a plain trait, a raw nested list (a caller mistake the source may
or may not detect), or a filter node produced by `createTreeQueryFilter`.
A filter node carries its accumulated components, the user condition and
its nested filter nodes (`childQueries`). -/
inductive TreeElem (W : Type) where
  | trait (t : Nat)
  | rawList (elems : List (TreeElem W))
  | filterNode (components : List (TreeElem W)) (cond : Cond W)
      (childQueries : List (TreeElem W))

namespace TreeElem

/-- The `isFilter` marker of the source: only filter nodes carry it. -/
def isFilterElem {W : Type} : TreeElem W → Bool
  | .filterNode _ _ _ => true
  | _ => false

/-- Whether an element is a raw nested list. -/
def isRawList {W : Type} : TreeElem W → Bool
  | .rawList _ => true
  | _ => false

end TreeElem

/-- The inner scan of `queryFilter` over the child list for one parent
`p`: collect matching children; with `skipCollectingChildren` set, break
after the first match (source lines 424-439). -/
def scanChildren {W : Type} (cond : Cond W) (w : W) (p : Nat) (skip : Bool) :
    List Nat → List Nat
  | [] => []
  | c :: cs =>
    if cond p c w then
      (if skip then [c] else c :: scanChildren cond w p skip cs)
    else scanChildren cond w p skip cs

/-- The existential pairwise filter built by `createTreeQueryFilter`
(source lines 410-446): for each parent in order, scan the children for
matches; retain the parent iff some child matched, and append the
collected matching children to the output child list. -/
def queryFilter {W : Type} (cond : Cond W) (parents children : List Nat)
    (w : W) (skip : Bool) : List Nat × List Nat :=
  match parents with
  | [] => ([], [])
  | p :: ps =>
    let matched := scanChildren cond w p skip children
    let rest := queryFilter cond ps children w skip
    if matched.length = 0 then rest else (p :: rest.1, matched ++ rest.2)

/-- Error raised by the trait-splitting loop of `createTreeQueryFilter`. -/
inductive FilterError where
  | rawListArgument
  deriving DecidableEq

/-- The argument-splitting loop of `createTreeQueryFilter` (source lines
398-407): raw arrays are rejected, filter nodes go to `childQueries`,
everything else to `components`, preserving relative order. -/
def splitTraits {W : Type} : List (TreeElem W) →
    Except FilterError (List (TreeElem W) × List (TreeElem W))
  | [] => .ok ([], [])
  | .rawList _ :: _ => .error .rawListArgument
  | .filterNode c f q :: rest =>
    (splitTraits rest).map (fun p => (p.1, .filterNode c f q :: p.2))
  | .trait t :: rest =>
    (splitTraits rest).map (fun p => (.trait t :: p.1, p.2))

/-- `createTreeQueryFilter condition` returns a constructor which, applied
to a trait list, produces a filter node (or throws on a raw nested list).
The closure stored in the node is `queryFilter cond`; the compiled plan
records `cond` and the executor invokes `queryFilter cond` (source lines
380-451). -/
def createTreeQueryFilter {W : Type} (cond : Cond W)
    (traits : List (TreeElem W)) : Except FilterError (TreeElem W) :=
  (splitTraits traits).map fun p => .filterNode p.1 cond p.2

-- ---------------------------------------------------------------------
-- Specification lemmas for the pairwise filter

theorem scanChildren_eq {W : Type} (cond : Cond W) (w : W) (p : Nat)
    (skip : Bool) (cs : List Nat) :
    scanChildren cond w p skip cs =
      (if skip then (cs.filter (fun c => cond p c w)).take 1
        else cs.filter (fun c => cond p c w)) := by
  induction cs with
  | nil => cases skip <;> simp [scanChildren]
  | cons c cs ih =>
    by_cases h : cond p c w = true
    · cases skip <;> simp [scanChildren, h, ih, List.filter_cons]
    · simp only [Bool.not_eq_true] at h
      cases skip <;> simp [scanChildren, h, ih, List.filter_cons]

/-- The per-parent matched-children list: all matching children, or just
the first when the short-circuit flag is set. -/
def matchedList {W : Type} (cond : Cond W) (w : W) (p : Nat) (skip : Bool)
    (cs : List Nat) : List Nat :=
  if skip then (cs.filter (fun c => cond p c w)).take 1
  else cs.filter (fun c => cond p c w)

theorem matchedList_length_zero_iff {W : Type} (cond : Cond W) (w : W)
    (p : Nat) (skip : Bool) (cs : List Nat) :
    (matchedList cond w p skip cs).length = 0 ↔
      cs.any (fun c => cond p c w) = false := by
  have hfil : (cs.filter (fun c => cond p c w)).length = 0 ↔
      cs.any (fun c => cond p c w) = false := by
    rw [List.length_eq_zero, List.filter_eq_nil_iff]
    constructor
    · intro hall
      simp only [List.any_eq_false]
      intro c hc
      simpa using hall c hc
    · intro hany c hc
      have := List.any_eq_false.mp hany c hc
      simpa using this
  cases skip with
  | false =>
    rw [matchedList, if_neg Bool.false_ne_true]
    exact hfil
  | true =>
    simp only [matchedList, if_pos rfl]
    rw [← hfil]
    cases hl : cs.filter (fun c => cond p c w) <;> simp [hl]

theorem queryFilter_fst_eq {W : Type} (cond : Cond W) (ps cs : List Nat)
    (w : W) (skip : Bool) :
    (queryFilter cond ps cs w skip).1 =
      ps.filter (fun p => cs.any (fun c => cond p c w)) := by
  induction ps with
  | nil => simp [queryFilter]
  | cons p ps ih =>
    have hscan : scanChildren cond w p skip cs = matchedList cond w p skip cs :=
      scanChildren_eq cond w p skip cs
    by_cases h : cs.any (fun c => cond p c w) = true
    · have hlen : ¬ (matchedList cond w p skip cs).length = 0 := by
        rw [matchedList_length_zero_iff]
        simp [h]
      simp only [queryFilter, hscan, if_neg hlen, List.filter_cons, h,
        if_pos trivial, ih]
    · have hfalse : cs.any (fun c => cond p c w) = false := by
        simpa using h
      have hlen : (matchedList cond w p skip cs).length = 0 :=
        (matchedList_length_zero_iff cond w p skip cs).mpr hfalse
      simp only [queryFilter, hscan, if_pos hlen, List.filter_cons, hfalse, ih]
      simp

theorem queryFilter_snd_eq {W : Type} (cond : Cond W) (ps cs : List Nat)
    (w : W) (skip : Bool) :
    (queryFilter cond ps cs w skip).2 =
      ps.flatMap (fun p => matchedList cond w p skip cs) := by
  induction ps with
  | nil => simp [queryFilter]
  | cons p ps ih =>
    have hscan : scanChildren cond w p skip cs = matchedList cond w p skip cs :=
      scanChildren_eq cond w p skip cs
    by_cases h : (matchedList cond w p skip cs).length = 0
    · have hnil : matchedList cond w p skip cs = [] := by
        simpa [List.length_eq_zero] using h
      simp only [queryFilter, hscan, hnil, List.flatMap_cons,
        List.length_nil]
      simp only [if_pos rfl, hnil, List.nil_append]
      exact ih
    · simp only [queryFilter, hscan, if_neg h, List.flatMap_cons, ih]

-- ---------------------------------------------------------------------
-- The plan compiler (`createTreeQuery`, source lines 65-363)

/-- A heap slot for a `WipQuery` object (`{components, id}` in the source).
Objects are mutated in place by the build algorithm, so they are modelled
as slots in a heap indexed by allocation order. -/
structure Slot (W : Type) where
  id : Nat
  components : List (TreeElem W)

/-- An entry of `filterWithTuple`: the filter condition together with
references to the parent and child query objects. -/
structure Tuple (W : Type) where
  cond : Cond W
  parentSlot : Nat
  childSlot : Nat

/-- The mutable closure state of `createTreeQuery` during the build:
the object heap, the id counter, `filterWithTuple`, `finalQueries`
(slot references, possibly with duplicates) and the shared
`childQueryObjects` array. -/
structure BuildSt (W : Type) where
  slots : List (Slot W)
  nextId : Nat
  tuples : List (Tuple W)
  finalQs : List Nat
  cqo : List (List (TreeElem W) × Nat)

/-- Replace the element at an index of a list (out-of-range is a no-op),
used to model in-place mutation of heap slots. -/
def modList {α : Type} : List α → Nat → (α → α) → List α
  | [], _, _ => []
  | a :: r, 0, f => f a :: r
  | a :: r, n + 1, f => a :: modList r n f

/-- Read a heap slot (the default is never hit for well-formed states). -/
def getSlot {W : Type} (st : BuildSt W) (i : Nat) : Slot W :=
  st.slots.getD i ⟨0, []⟩

/-- Mutate a heap slot in place. -/
def modifySlot {W : Type} (st : BuildSt W) (i : Nat) (f : Slot W → Slot W) :
    BuildSt W :=
  { st with slots := modList st.slots i f }

/-- One iteration of the element loop of `buildQueryRecursive` (source
lines 156-193): a filter node allocates a child query object, records it
in `finalQueries`, possibly in `childQueryObjects`, and always in
`filterWithTuple`; any other element is pushed onto the current parent
object's component list. The `Bool` accumulator is `nextNodeFind`. -/
def processElem {W : Type} (pSlot : Nat) (acc : BuildSt W × Bool)
    (node : TreeElem W) : BuildSt W × Bool :=
  match node with
  | .filterNode comps cond cqs =>
    let st := acc.1
    let nnf := acc.2 || decide (0 < comps.length)
    let cSlotIdx := st.slots.length
    let st := { st with
      nextId := st.nextId + 1
      slots := st.slots ++ [(⟨st.nextId, comps⟩ : Slot W)]
      finalQs := st.finalQs ++ [cSlotIdx] }
    let st := if 0 < cqs.length then
        { st with cqo := st.cqo ++ [(cqs, cSlotIdx)] } else st
    ({ st with tuples := st.tuples ++ [(⟨cond, pSlot, cSlotIdx⟩ : Tuple W)] }, nnf)
  | other =>
    (modifySlot acc.1 pSlot
      (fun s => { s with components := s.components ++ [other] }), acc.2)

/-- A pending activation of the build algorithm: either a call to
`buildQueryRecursive` itself, or the live `for...of` iteration over the
shared `childQueryObjects` array at a given index (source lines 205-207).
The JS array iterator re-reads the array on every step, so the iteration
is modelled by an index into the current state's array. -/
inductive BuildCall (W : Type) where
  | build (query : List (TreeElem W)) (foundNodeComponents : Bool)
      (parentSlot : Option Nat)
  | loop (idx : Nat) (nnf : Bool)

/-- The non-recursive part of one `buildQueryRecursive` activation
(source lines 146-202): clear `childQueryObjects`, resolve or allocate
the current parent object, run the element loop, and finalise the parent
object (lines 195-202: when it accumulated no components — and the
current query is non-empty and no enclosing node found components — it
gets a fresh id and is pushed, possibly again, onto `finalQueries`;
when it accumulated components and was newly created it is pushed once).
Returns the new state and the frame's `nextNodeFind` flag. -/
def buildFrame {W : Type} (query : List (TreeElem W)) (fnc : Bool)
    (parent? : Option Nat) (st : BuildSt W) : BuildSt W × Bool :=
  let st : BuildSt W := { st with cqo := [] }
  let alloc : Nat × BuildSt W × Bool :=
    match parent? with
    | some s => (s, st, true)
    | none =>
      (st.slots.length,
        { st with nextId := st.nextId + 1, slots := st.slots ++ [⟨st.nextId, []⟩] },
        false)
  let pSlot := alloc.1
  let passed := alloc.2.2
  let queryLen := query.length
  let step := query.foldl (processElem pSlot) (alloc.2.1, false)
  let st2 := step.1
  let nnf := step.2
  let pComps := (getSlot st2 pSlot).components
  let st3 :=
    if pComps.length = 0 ∧ 0 < queryLen ∧ fnc = false then
      let st2b := modifySlot st2 pSlot (fun s => { s with id := st2.nextId })
      { st2b with nextId := st2b.nextId + 1, finalQs := st2b.finalQs ++ [pSlot] }
    else if 0 < pComps.length ∧ passed = false then
      { st2 with finalQs := st2.finalQs ++ [pSlot] }
    else st2
  (st3, nnf)

/-- The recursive build algorithm (source lines 141-208), fueled.
A `build` activation runs `buildFrame` and then iterates the live
`childQueryObjects` array. A `loop` activation re-reads the shared array
at its index (the JS array iterator reads the mutated array) and recurses
with the frame's `nextNodeFind` flag. -/
def buildQueryRecursive {W : Type} :
    Nat → BuildCall W → BuildSt W → Option (BuildSt W)
  | fuel, .loop idx nnf, st =>
    match st.cqo[idx]? with
    | none => some st
    | some entry =>
      match fuel with
      | 0 => none
      | f + 1 =>
        (buildQueryRecursive f (.build entry.1 nnf (some entry.2)) st).bind
          fun st2 => buildQueryRecursive f (.loop (idx + 1) nnf) st2
  | 0, .build _ _ _, _ => none
  | f + 1, .build query fnc parent?, st =>
    buildQueryRecursive f (.loop 0 (buildFrame query fnc parent? st).2)
      (buildFrame query fnc parent? st).1

-- ---------------------------------------------------------------------
-- Node store and evaluation tree (source lines 228-311)

/-- An `EvalNode` of the source after the build is finished: its
accumulated attribute requirements and its child edges (condition and
child node id) in insertion order. -/
structure StoreNode (W : Type) where
  reqs : List (TreeElem W)
  childEdges : List (Cond W × Nat)

/-- Association-list lookup keyed by node id. -/
def alookup {α : Type} : List (Nat × α) → Nat → Option α
  | [], _ => none
  | (k, v) :: r, i => if k = i then some v else alookup r i

/-- Association-list insert (append; callers only insert missing keys). -/
def ainsert {α : Type} (l : List (Nat × α)) (k : Nat) (v : α) :
    List (Nat × α) :=
  l ++ [(k, v)]

/-- Association-list update of an existing key in place. -/
def amodify {α : Type} : List (Nat × α) → Nat → (α → α) → List (Nat × α)
  | [], _, _ => []
  | (k, v) :: r, i, f =>
    if k = i then (k, f v) :: r else (k, v) :: amodify r i f

/-- Map-style set: overwrite the value when the key is present, append
otherwise (models `Map.set` for `queryById`, source lines 217-221). -/
def aset {α : Type} (l : List (Nat × α)) (k : Nat) (v : α) :
    List (Nat × α) :=
  if (alookup l k).isSome then amodify l k (fun _ => v) else ainsert l k v

/-- `queryById` (source lines 217-221): iterate `finalQueries` and record
each object's final id and component list. -/
def queryById {W : Type} (st : BuildSt W) : List (Nat × List (TreeElem W)) :=
  st.finalQs.foldl
    (fun m i => aset m (getSlot st i).id (getSlot st i).components) []

/-- The node-store construction (source lines 232-269): for each entry of
`filterWithTuple`, get or create the parent node; if the child node does
not exist yet, create it and push the edge onto the parent's child list —
when the child id already exists, no edge is recorded. -/
def buildStore {W : Type} (st : BuildSt W)
    (q : List (Nat × List (TreeElem W))) : List (Nat × StoreNode W) :=
  st.tuples.foldl
    (fun store t =>
      let pid := (getSlot st t.parentSlot).id
      let cid := (getSlot st t.childSlot).id
      let store := match alookup store pid with
        | some _ => store
        | none => ainsert store pid ⟨(alookup q pid).getD [], []⟩
      match alookup store cid with
      | some _ => store
      | none =>
        let store := amodify store pid
          (fun n => { n with childEdges := n.childEdges ++ [(t.cond, cid)] })
        ainsert store cid ⟨(alookup q cid).getD [], []⟩)
    []

mutual
/-- The linked evaluation tree (`EvalNode` pointers of the source). -/
inductive EvalTree (W : Type) : Type where
  | mk (id : Nat) (reqs : List (TreeElem W)) (children : EvalForest W)

/-- The `children` array of an `EvalNode`: conditions paired with child
trees, in insertion order. -/
inductive EvalForest (W : Type) : Type where
  | nil
  | cons (cond : Cond W) (t : EvalTree W) (rest : EvalForest W)
end

namespace EvalTree

/-- Node id. -/
def nid {W : Type} : EvalTree W → Nat
  | .mk i _ _ => i

/-- Node attribute requirements. -/
def nreqs {W : Type} : EvalTree W → List (TreeElem W)
  | .mk _ r _ => r

/-- Node children. -/
def nchildren {W : Type} : EvalTree W → EvalForest W
  | .mk _ _ c => c

end EvalTree

/-- Whether a forest is empty (`children.length === 0` in the source). -/
def EvalForest.isNil {W : Type} : EvalForest W → Bool
  | .nil => true
  | .cons _ _ _ => false

/-- Result of a tree-extraction step. -/
inductive MkRes (W : Type) where
  | tree (t : EvalTree W)
  | forest (f : EvalForest W)

/-- Extract the linked evaluation tree rooted at a node id from the node
store (the pointer structure the source builds directly), fueled. -/
def mkStep {W : Type} : Nat → List (Nat × StoreNode W) →
    Sum Nat (List (Cond W × Nat)) → Option (MkRes W)
  | 0, _, _ => none
  | f + 1, store, .inl id =>
    match alookup store id with
    | none => none
    | some n =>
      match mkStep f store (.inr n.childEdges) with
      | some (.forest cs) => some (.tree (.mk id n.reqs cs))
      | _ => none
  | _ + 1, _, .inr [] => some (.forest .nil)
  | f + 1, store, .inr ((c, cid) :: rest) =>
    match mkStep f store (.inl cid), mkStep f store (.inr rest) with
    | some (.tree t), some (.forest fs) => some (.forest (.cons c t fs))
    | _, _ => none

/-- Extract the evaluation tree for a root id. -/
def mkTree {W : Type} (fuel : Nat) (store : List (Nat × StoreNode W))
    (id : Nat) : Option (EvalTree W) :=
  match mkStep fuel store (.inl id) with
  | some (.tree t) => some t
  | _ => none

-- ---------------------------------------------------------------------
-- Plan flattening (source lines 283-311)

/-- A flattened filter edge as consumed by the executor: the condition,
both node ids and requirement sets, and whether the child node is a leaf
(`childNode.children.length === 0`, the short-circuit flag of source
line 344 — a static property of the compiled plan). -/
structure PlanEdge (W : Type) where
  cond : Cond W
  parentId : Nat
  parentReqs : List (TreeElem W)
  childId : Nat
  childReqs : List (TreeElem W)
  childIsLeaf : Bool

/-- The trees of a forest, in order. -/
def forestTrees {W : Type} : EvalForest W → List (EvalTree W)
  | .nil => []
  | .cons _ t rest => t :: forestTrees rest

/-- The `(edge, child subtree)` pairs for the direct children of a node
with the given id and requirements. -/
def forestPairs {W : Type} (pid : Nat) (preqs : List (TreeElem W)) :
    EvalForest W → List (PlanEdge W × EvalTree W)
  | .nil => []
  | .cons c t rest =>
    (⟨c, pid, preqs, t.nid, t.nreqs, t.nchildren.isNil⟩, t) ::
      forestPairs pid preqs rest

/-- The direct child edges of a node (what the stack loop records when it
pops the node). -/
def childEdgesOf {W : Type} (t : EvalTree W) : List (PlanEdge W) :=
  (forestPairs t.nid t.nreqs t.nchildren).map Prod.fst

mutual
/-- Total size of a tree (number of nodes), used as exact fuel for the
stack loop. -/
def treeSize {W : Type} : EvalTree W → Nat
  | .mk _ _ cs => 1 + forestSize cs

/-- Total size of a forest. -/
def forestSize {W : Type} : EvalForest W → Nat
  | .nil => 0
  | .cons _ t rest => treeSize t + forestSize rest
end

/-- Total size of a stack of trees. -/
def stackSize {W : Type} : List (EvalTree W) → Nat
  | [] => 0
  | t :: rest => treeSize t + stackSize rest

/-- The while-loop of the flattener (source lines 291-298): pop the top
node, push its children (so the last child is processed first) and record
its child edges in order. The JS stack keeps its top at the array end;
here the head of the list is the top. Each iteration removes exactly one
node from the stack's total size, so `stackSize` fuel is exact. -/
def flattenLoop {W : Type} : Nat → List (EvalTree W) → List (PlanEdge W) →
    List (PlanEdge W)
  | 0, _, acc => acc
  | _ + 1, [], acc => acc
  | f + 1, t :: rest, acc =>
    flattenLoop f ((forestTrees t.nchildren).reverse ++ rest)
      (acc ++ childEdgesOf t)

/-- `edgesFlattened` (source lines 283-311): depth-first stack traversal
from the root recording edges in visitation order, then a full reversal. -/
def edgesFlattened {W : Type} (t : EvalTree W) : List (PlanEdge W) :=
  (flattenLoop (treeSize t) [t] []).reverse

-- ---------------------------------------------------------------------
-- The compiler entry point

/-- Compilation outcome errors. `emptyTree` and `noFilter` are the
specification errors of the source (lines 66-68 and 223-225);
`internalRootMissing` is the internal invariant violation of lines
278-280; `fuelExhausted` is an artifact of the fueled model and never
occurs for adequate fuel. -/
inductive TQError where
  | emptyTree
  | noFilter
  | internalRootMissing
  | fuelExhausted
  deriving DecidableEq

/-- A compiled plan: the flattened, reversed edge list and the root node
id. -/
structure Plan (W : Type) where
  edges : List (PlanEdge W)
  rootId : Nat

/-- The initial build state. -/
def initBuildSt (W : Type) : BuildSt W :=
  ⟨[], 0, [], [], []⟩

/-- `createTreeQuery` (source lines 65-363): reject an empty
specification, run the recursive build, reject a specification without
any filter, resolve the root id from the first filter tuple, build the
node store, extract the evaluation tree and flatten it. The returned
plan is what the closure of source line 319 captures. -/
def createTreeQuery {W : Type} (fuel : Nat) (queryTree : List (TreeElem W)) :
    Except TQError (Plan W) :=
  if queryTree.length = 0 then .error .emptyTree
  else
    match buildQueryRecursive (fuel + 1) (.build queryTree false none)
        (initBuildSt W) with
    | none => .error .fuelExhausted
    | some st =>
      let q := queryById st
      if st.tuples.length = 0 then .error .noFilter
      else
        let rootId := (getSlot st ((st.tuples.headD ⟨fun _ _ _ => false, 0, 0⟩).parentSlot)).id
        let store := buildStore st q
        match alookup store rootId with
        | none => .error .internalRootMissing
        | some _ =>
          match mkTree (fuel + 1) store rootId with
          | none => .error .fuelExhausted
          | some t => .ok ⟨edgesFlattened t, rootId⟩

-- ---------------------------------------------------------------------
-- The executor (source lines 319-360)

/-- Per-execution evaluation state: the `updateList` of every node
(a total map from node id to its current candidate list — entries for
ids not yet touched are whatever a previous execution left there) and the
`queriesComputed` set, cleared at the start of each call. -/
structure ExecState where
  lists : Nat → List Nat
  computed : List Nat
  deriving Inhabited

/-- Point update of the candidate-list map. -/
def updFn (f : Nat → List Nat) (k : Nat) (v : List Nat) : Nat → List Nat :=
  fun n => if n = k then v else f n

/-- Lazy materialisation (source lines 329-336): if the node's query has
not been run during this execution, run it against the world and record
the node as computed. -/
def ensureNode {W : Type} (wq : W → List (TreeElem W) → List Nat) (w : W)
    (id : Nat) (reqs : List (TreeElem W)) (st : ExecState) : ExecState :=
  if id ∈ st.computed then st
  else ⟨updFn st.lists id (wq w reqs), id :: st.computed⟩

/-- Processing of one flattened edge (source lines 326-356): materialise
both node lists, narrow them through the pairwise filter with the
short-circuit flag, return `none` (global early exit) when either
narrowed list is empty, otherwise overwrite both lists. -/
def processEdge {W : Type} (wq : W → List (TreeElem W) → List Nat) (w : W)
    (e : PlanEdge W) (st : ExecState) : Option ExecState :=
  let st1 := ensureNode wq w e.parentId e.parentReqs st
  let st2 := ensureNode wq w e.childId e.childReqs st1
  let res := queryFilter e.cond (st2.lists e.parentId) (st2.lists e.childId)
    w e.childIsLeaf
  if res.1.length = 0 ∨ res.2.length = 0 then none
  else some ⟨updFn (updFn st2.lists e.parentId res.1) e.childId res.2,
    st2.computed⟩

/-- The edge loop of the executor. `none` means the early exit was taken. -/
def runEdges {W : Type} (wq : W → List (TreeElem W) → List Nat) (w : W) :
    List (PlanEdge W) → ExecState → Option ExecState
  | [], st => some st
  | e :: rest, st =>
    match processEdge wq w e st with
    | none => none
    | some st2 => runEdges wq w rest st2

/-- One execution of a compiled plan (the closure of source line 319).
`carried` is the lists map left over from previous executions (the
`updateList` fields persist in the closure); `queriesComputed` is cleared
on entry. On early exit the empty list is returned, otherwise the root
node's final candidate list. -/
def execPlan {W : Type} (wq : W → List (TreeElem W) → List Nat) (w : W)
    (plan : Plan W) (carried : Nat → List Nat) : List Nat :=
  match runEdges wq w plan.edges ⟨carried, []⟩ with
  | none => []
  | some st => st.lists plan.rootId

-- ---------------------------------------------------------------------
-- Further helper lemmas about the pairwise filter

theorem matchedList_subset {W : Type} (cond : Cond W) (w : W) (p : Nat)
    (skip : Bool) (cs : List Nat) :
    ∀ x ∈ matchedList cond w p skip cs, x ∈ cs := by
  intro x hx
  unfold matchedList at hx
  cases skip with
  | false =>
    rw [if_neg Bool.false_ne_true] at hx
    exact List.mem_of_mem_filter hx
  | true =>
    simp only [if_pos rfl] at hx
    exact List.mem_of_mem_filter (List.mem_of_mem_take hx)

theorem queryFilter_fst_subset {W : Type} (cond : Cond W)
    (ps cs : List Nat) (w : W) (skip : Bool) :
    ∀ x ∈ (queryFilter cond ps cs w skip).1, x ∈ ps := by
  intro x hx
  rw [queryFilter_fst_eq] at hx
  exact List.mem_of_mem_filter hx

theorem queryFilter_snd_subset {W : Type} (cond : Cond W)
    (ps cs : List Nat) (w : W) (skip : Bool) :
    ∀ x ∈ (queryFilter cond ps cs w skip).2, x ∈ cs := by
  intro x hx
  rw [queryFilter_snd_eq] at hx
  rcases List.mem_flatMap.mp hx with ⟨p, _, hm⟩
  exact matchedList_subset cond w p skip cs x hm

theorem queryFilter_fst_nil_iff_snd_nil {W : Type} (cond : Cond W)
    (ps cs : List Nat) (w : W) (skip : Bool) :
    (queryFilter cond ps cs w skip).1 = [] ↔
      (queryFilter cond ps cs w skip).2 = [] := by
  rw [queryFilter_fst_eq, queryFilter_snd_eq, List.filter_eq_nil_iff,
    List.flatMap_eq_nil_iff]
  constructor
  · intro h p hp
    have := h p hp
    have hfalse : cs.any (fun c => cond p c w) = false := by simpa using this
    simpa [List.length_eq_zero] using
      (matchedList_length_zero_iff cond w p skip cs).mpr hfalse
  · intro h p hp
    have hnil : (matchedList cond w p skip cs).length = 0 := by
      simp [h p hp]
    have := (matchedList_length_zero_iff cond w p skip cs).mp hnil
    simp [this]

theorem queryFilter_fst_mem {W : Type} (cond : Cond W) (ps cs : List Nat)
    (w : W) (skip : Bool) (x : Nat) :
    x ∈ (queryFilter cond ps cs w skip).1 ↔
      x ∈ ps ∧ ∃ c ∈ cs, cond x c w = true := by
  rw [queryFilter_fst_eq]
  simp [List.mem_filter, List.any_eq_true]

-- ---------------------------------------------------------------------
-- Claim C1

/-- Claim C1: the existential pairwise filter `queryFilter` produced by
`createTreeQueryFilter` retains a parent in the output parent list iff
some child in the input child list satisfies the user condition (the
output parent list is exactly the parents filtered by existence of a
matching child, in order), and the output child list is the
concatenation, per parent in order, of that parent's matching children —
all of them when the `skipCollectingChildren` flag is false, and only the
first one when the flag is true (`matchedList` takes `take 1` of the
matches exactly when `skip` is true). -/
theorem c1_queryFilter_spec {W : Type} (cond : Cond W) (ps cs : List Nat)
    (w : W) (skip : Bool) :
    (queryFilter cond ps cs w skip).1 =
        ps.filter (fun p => cs.any (fun c => cond p c w)) ∧
      (queryFilter cond ps cs w skip).2 =
        ps.flatMap (fun p =>
          if skip then (cs.filter (fun c => cond p c w)).take 1
          else cs.filter (fun c => cond p c w)) :=
  ⟨queryFilter_fst_eq cond ps cs w skip, by
    rw [queryFilter_snd_eq]
    rfl⟩

-- ---------------------------------------------------------------------
-- Claim C6

/-- Claim C6: for any parent list, child list, world and user condition,
the parents retained by the existential pairwise filter are the same
whether the short-circuit flag is true or false — only the collected
children may differ. -/
theorem c6_shortCircuit_parents_eq {W : Type} (cond : Cond W)
    (ps cs : List Nat) (w : W) :
    (queryFilter cond ps cs w true).1 = (queryFilter cond ps cs w false).1 := by
  rw [queryFilter_fst_eq, queryFilter_fst_eq]

-- ---------------------------------------------------------------------
-- Executor lemmas

theorem ensureNode_lists_self {W : Type} (wq : W → List (TreeElem W) → List Nat)
    (w : W) (id : Nat) (reqs : List (TreeElem W)) (st : ExecState) :
    (ensureNode wq w id reqs st).lists id =
      (if id ∈ st.computed then st.lists id else wq w reqs) := by
  unfold ensureNode
  by_cases h : id ∈ st.computed
  · simp [h]
  · simp [h, updFn]

theorem ensureNode_computed_self {W : Type}
    (wq : W → List (TreeElem W) → List Nat) (w : W) (id : Nat)
    (reqs : List (TreeElem W)) (st : ExecState) :
    id ∈ (ensureNode wq w id reqs st).computed := by
  unfold ensureNode
  by_cases h : id ∈ st.computed
  · simpa [h] using h
  · simp [h]

theorem ensureNode_computed_mono {W : Type}
    (wq : W → List (TreeElem W) → List Nat) (w : W) (id : Nat)
    (reqs : List (TreeElem W)) (st : ExecState) (n : Nat)
    (hn : n ∈ st.computed) : n ∈ (ensureNode wq w id reqs st).computed := by
  unfold ensureNode
  by_cases h : id ∈ st.computed
  · simpa [h] using hn
  · simp [h, hn]

theorem ensureNode_lists_of_computed {W : Type}
    (wq : W → List (TreeElem W) → List Nat) (w : W) (id : Nat)
    (reqs : List (TreeElem W)) (st : ExecState) (n : Nat)
    (hn : n ∈ st.computed) :
    (ensureNode wq w id reqs st).lists n = st.lists n := by
  unfold ensureNode
  by_cases h : id ∈ st.computed
  · simp [h]
  · have hne : n ≠ id := fun he => h (he ▸ hn)
    simp [h, updFn, hne]

/-- States that agree on the computed set and on every computed node's
candidate list. The carried-over lists of nodes not yet touched in this
execution may differ arbitrarily. -/
def StAgree (s1 s2 : ExecState) : Prop :=
  s1.computed = s2.computed ∧ ∀ n ∈ s1.computed, s1.lists n = s2.lists n

theorem ensureNode_agree {W : Type} (wq : W → List (TreeElem W) → List Nat)
    (w : W) (id : Nat) (reqs : List (TreeElem W)) (s1 s2 : ExecState)
    (h : StAgree s1 s2) :
    StAgree (ensureNode wq w id reqs s1) (ensureNode wq w id reqs s2) := by
  obtain ⟨hc, hl⟩ := h
  have hl2 : ∀ n ∈ s2.computed, s1.lists n = s2.lists n :=
    fun n hn => hl n (by rw [hc]; exact hn)
  unfold ensureNode
  rw [hc]
  by_cases hmem : id ∈ s2.computed
  · simp only [if_pos hmem]
    exact ⟨hc, hl⟩
  · simp only [if_neg hmem]
    refine ⟨rfl, fun n hn => ?_⟩
    simp only [updFn]
    by_cases hne : n = id
    · simp [hne]
    · simp only [if_neg hne]
      refine hl2 n ?_
      simp only [List.mem_cons] at hn
      rcases hn with h1 | h2
      · exact absurd h1 hne
      · exact h2

theorem ensureNode_lists_eq_of_agree {W : Type}
    (wq : W → List (TreeElem W) → List Nat) (w : W) (id : Nat)
    (reqs : List (TreeElem W)) (s1 s2 : ExecState) (h : StAgree s1 s2) :
    (ensureNode wq w id reqs s1).lists id =
      (ensureNode wq w id reqs s2).lists id := by
  have hagree := ensureNode_agree wq w id reqs s1 s2 h
  exact hagree.2 id (ensureNode_computed_self wq w id reqs s1)

theorem runEdges_append {W : Type} (wq : W → List (TreeElem W) → List Nat)
    (w : W) (a b : List (PlanEdge W)) (st : ExecState) :
    runEdges wq w (a ++ b) st =
      (runEdges wq w a st).bind (fun st2 => runEdges wq w b st2) := by
  induction a generalizing st with
  | nil => simp [runEdges]
  | cons e a ih =>
    simp only [List.cons_append, runEdges]
    cases processEdge wq w e st with
    | none => simp
    | some st2 => simpa using ih st2

/-- The evaluation state after the lazy-materialisation phase (step a of
the executor) of one edge: both node lists populated, nothing narrowed
yet. -/
def ensuredState {W : Type} (wq : W → List (TreeElem W) → List Nat) (w : W)
    (e : PlanEdge W) (st : ExecState) : ExecState :=
  ensureNode wq w e.childId e.childReqs
    (ensureNode wq w e.parentId e.parentReqs st)

/-- The narrowed pair computed for one edge from the ensured state. -/
def edgeNarrow {W : Type} (wq : W → List (TreeElem W) → List Nat) (w : W)
    (e : PlanEdge W) (st : ExecState) : List Nat × List Nat :=
  queryFilter e.cond ((ensuredState wq w e st).lists e.parentId)
    ((ensuredState wq w e st).lists e.childId) w e.childIsLeaf

theorem processEdge_eq {W : Type} (wq : W → List (TreeElem W) → List Nat)
    (w : W) (e : PlanEdge W) (st : ExecState) :
    processEdge wq w e st =
      (if (edgeNarrow wq w e st).1.length = 0 ∨
          (edgeNarrow wq w e st).2.length = 0 then none
        else some ⟨updFn (updFn (ensuredState wq w e st).lists e.parentId
            (edgeNarrow wq w e st).1) e.childId (edgeNarrow wq w e st).2,
          (ensuredState wq w e st).computed⟩) := rfl

theorem processEdge_none_iff {W : Type}
    (wq : W → List (TreeElem W) → List Nat) (w : W) (e : PlanEdge W)
    (st : ExecState) :
    processEdge wq w e st = none ↔
      ((edgeNarrow wq w e st).1.length = 0 ∨
        (edgeNarrow wq w e st).2.length = 0) := by
  rw [processEdge_eq]
  by_cases h : (edgeNarrow wq w e st).1.length = 0 ∨
      (edgeNarrow wq w e st).2.length = 0
  · rw [if_pos h]
    exact iff_of_true rfl h
  · rw [if_neg h]
    exact iff_of_false (by simp) h

theorem processEdge_some_eq {W : Type}
    (wq : W → List (TreeElem W) → List Nat) (w : W) (e : PlanEdge W)
    (st st2 : ExecState) (h : processEdge wq w e st = some st2) :
    st2 = ⟨updFn (updFn (ensuredState wq w e st).lists e.parentId
        (edgeNarrow wq w e st).1) e.childId (edgeNarrow wq w e st).2,
      (ensuredState wq w e st).computed⟩ := by
  rw [processEdge_eq] at h
  by_cases hc : (edgeNarrow wq w e st).1.length = 0 ∨
      (edgeNarrow wq w e st).2.length = 0
  · rw [if_pos hc] at h
    exact absurd h (by simp)
  · rw [if_neg hc] at h
    exact (Option.some.injEq _ _ ▸ h).symm

-- ---------------------------------------------------------------------
-- Claim C5

/-- Claim C5: as soon as processing some edge of the flattened list
narrows either side to the empty list (`processEdge` returns `none`),
the whole execution stops and returns the empty list, whatever edges
remain after it — the conclusion holds for every continuation `rest`,
so no further edge is evaluated. The compiled query call returns a list
(an empty sequence, never a null-like value) by its type. -/
theorem c5_early_exit_empty {W : Type}
    (wq : W → List (TreeElem W) → List Nat) (w : W)
    (pre rest : List (PlanEdge W)) (e : PlanEdge W) (rootId : Nat)
    (carried : Nat → List Nat) (st : ExecState)
    (h1 : runEdges wq w pre ⟨carried, []⟩ = some st)
    (h2 : processEdge wq w e st = none) :
    execPlan wq w ⟨pre ++ e :: rest, rootId⟩ carried = [] := by
  unfold execPlan
  rw [runEdges_append, h1]
  simp [runEdges, h2]

/-- Witness for C5 at a concrete input: a one-edge plan over a world
with no matching pair; the early exit is taken on the first edge and the
result is empty for an arbitrary continuation. -/
theorem c5_early_exit_empty_witness :
    runEdges (W := Unit) (fun _ _ => [1, 2]) () [] ⟨fun _ => [], []⟩ =
        some ⟨fun _ => [], []⟩ ∧
      processEdge (W := Unit) (fun _ _ => [1, 2]) ()
        ⟨fun _ _ _ => false, 0, [], 1, [], true⟩ ⟨fun _ => [], []⟩ = none ∧
      execPlan (W := Unit) (fun _ _ => [1, 2]) ()
        ⟨[] ++ ⟨fun _ _ _ => false, 0, [], 1, [], true⟩ ::
          [⟨fun _ _ _ => true, 0, [], 1, [], false⟩], 0⟩ (fun _ => []) = [] := by
  refine ⟨rfl, rfl, ?_⟩
  exact c5_early_exit_empty (W := Unit) (fun _ _ => [1, 2]) () []
    [⟨fun _ _ _ => true, 0, [], 1, [], false⟩]
    ⟨fun _ _ _ => false, 0, [], 1, [], true⟩ 0 (fun _ => [])
    ⟨fun _ => [], []⟩ rfl rfl

-- ---------------------------------------------------------------------
-- Claim C7

/-- Claim C7: monotonic narrowing. For any edge processed successfully
during an execution (after a prefix of the plan has run), the candidate
lists stored for the edge's parent node and child node afterwards contain
only entities of those nodes' lists from before the narrowing (the lists
of the lazily materialised state the filter received as input), and every
other node's list is untouched. -/
theorem c7_monotonic_narrowing {W : Type}
    (wq : W → List (TreeElem W) → List Nat) (w : W)
    (pre : List (PlanEdge W)) (e : PlanEdge W) (carried : Nat → List Nat)
    (st st2 : ExecState)
    (h1 : runEdges wq w pre ⟨carried, []⟩ = some st)
    (h2 : processEdge wq w e st = some st2) :
    (∀ x ∈ st2.lists e.parentId,
        x ∈ (ensuredState wq w e st).lists e.parentId) ∧
      (∀ x ∈ st2.lists e.childId,
        x ∈ (ensuredState wq w e st).lists e.childId) ∧
      (∀ n, n ≠ e.parentId → n ≠ e.childId →
        st2.lists n = (ensuredState wq w e st).lists n) := by
  have hst2 := processEdge_some_eq wq w e st st2 h2
  subst hst2
  refine ⟨?_, ?_, ?_⟩
  · intro x hx
    by_cases hpc : e.parentId = e.childId
    · have hx2 : x ∈ (edgeNarrow wq w e st).2 := by
        simpa [updFn, hpc] using hx
      have hsub := queryFilter_snd_subset e.cond
        ((ensuredState wq w e st).lists e.parentId)
        ((ensuredState wq w e st).lists e.childId) w e.childIsLeaf x hx2
      rw [hpc]
      exact hsub
    · have hx1 : x ∈ (edgeNarrow wq w e st).1 := by
        simpa [updFn, hpc] using hx
      exact queryFilter_fst_subset e.cond _ _ w e.childIsLeaf x hx1
  · intro x hx
    have hx2 : x ∈ (edgeNarrow wq w e st).2 := by
      simpa [updFn] using hx
    exact queryFilter_snd_subset e.cond _ _ w e.childIsLeaf x hx2
  · intro n hnp hnc
    simp [updFn, hnp, hnc]

/-- Witness for C7 at a concrete input: a single edge over a two-entity
world with the always-true condition, processed from the initial state. -/
theorem c7_monotonic_narrowing_witness :
    runEdges (W := Unit) (fun _ _ => [1, 2]) () [] ⟨fun _ => [], []⟩ =
        some ⟨fun _ => [], []⟩ ∧
      processEdge (W := Unit) (fun _ _ => [1, 2]) ()
          ⟨fun _ _ _ => true, 0, [], 1, [], true⟩ ⟨fun _ => [], []⟩ =
        some (processEdge (W := Unit) (fun _ _ => [1, 2]) ()
          ⟨fun _ _ _ => true, 0, [], 1, [], true⟩
            ⟨fun _ => [], []⟩).iget ∧
      ((∀ x ∈ ((processEdge (W := Unit) (fun _ _ => [1, 2]) ()
            ⟨fun _ _ _ => true, 0, [], 1, [], true⟩
            ⟨fun _ => [], []⟩).iget).lists 0,
          x ∈ (ensuredState (W := Unit) (fun _ _ => [1, 2]) ()
            ⟨fun _ _ _ => true, 0, [], 1, [], true⟩
            ⟨fun _ => [], []⟩).lists 0) ∧
        (∀ x ∈ ((processEdge (W := Unit) (fun _ _ => [1, 2]) ()
            ⟨fun _ _ _ => true, 0, [], 1, [], true⟩
            ⟨fun _ => [], []⟩).iget).lists 1,
          x ∈ (ensuredState (W := Unit) (fun _ _ => [1, 2]) ()
            ⟨fun _ _ _ => true, 0, [], 1, [], true⟩
            ⟨fun _ => [], []⟩).lists 1) ∧
        (∀ n, n ≠ 0 → n ≠ 1 →
          ((processEdge (W := Unit) (fun _ _ => [1, 2]) ()
            ⟨fun _ _ _ => true, 0, [], 1, [], true⟩
            ⟨fun _ => [], []⟩).iget).lists n =
          (ensuredState (W := Unit) (fun _ _ => [1, 2]) ()
            ⟨fun _ _ _ => true, 0, [], 1, [], true⟩
            ⟨fun _ => [], []⟩).lists n)) := by
  refine ⟨rfl, rfl, ?_⟩
  exact c7_monotonic_narrowing (W := Unit) (fun _ _ => [1, 2]) () []
    ⟨fun _ _ _ => true, 0, [], 1, [], true⟩ (fun _ => [])
    ⟨fun _ => [], []⟩ _ rfl rfl

-- ---------------------------------------------------------------------
-- State-independence of execution (for claim C10)

theorem ensuredState_agree {W : Type} (wq : W → List (TreeElem W) → List Nat)
    (w : W) (e : PlanEdge W) (s1 s2 : ExecState) (h : StAgree s1 s2) :
    StAgree (ensuredState wq w e s1) (ensuredState wq w e s2) :=
  ensureNode_agree wq w e.childId e.childReqs _ _
    (ensureNode_agree wq w e.parentId e.parentReqs s1 s2 h)

theorem ensuredState_parent_computed {W : Type}
    (wq : W → List (TreeElem W) → List Nat) (w : W) (e : PlanEdge W)
    (st : ExecState) : e.parentId ∈ (ensuredState wq w e st).computed :=
  ensureNode_computed_mono wq w e.childId e.childReqs _ e.parentId
    (ensureNode_computed_self wq w e.parentId e.parentReqs st)

theorem ensuredState_child_computed {W : Type}
    (wq : W → List (TreeElem W) → List Nat) (w : W) (e : PlanEdge W)
    (st : ExecState) : e.childId ∈ (ensuredState wq w e st).computed :=
  ensureNode_computed_self wq w e.childId e.childReqs _

theorem ensuredState_computed_mono {W : Type}
    (wq : W → List (TreeElem W) → List Nat) (w : W) (e : PlanEdge W)
    (st : ExecState) (n : Nat) (hn : n ∈ st.computed) :
    n ∈ (ensuredState wq w e st).computed :=
  ensureNode_computed_mono wq w e.childId e.childReqs _ n
    (ensureNode_computed_mono wq w e.parentId e.parentReqs st n hn)

theorem edgeNarrow_eq_of_agree {W : Type}
    (wq : W → List (TreeElem W) → List Nat) (w : W) (e : PlanEdge W)
    (s1 s2 : ExecState) (h : StAgree s1 s2) :
    edgeNarrow wq w e s1 = edgeNarrow wq w e s2 := by
  have hag := ensuredState_agree wq w e s1 s2 h
  unfold edgeNarrow
  rw [hag.2 e.parentId (ensuredState_parent_computed wq w e s1),
    hag.2 e.childId (ensuredState_child_computed wq w e s1)]

theorem processEdge_agree {W : Type}
    (wq : W → List (TreeElem W) → List Nat) (w : W) (e : PlanEdge W)
    (s1 s2 : ExecState) (h : StAgree s1 s2) :
    (processEdge wq w e s1 = none ∧ processEdge wq w e s2 = none) ∨
      (∃ t1 t2, processEdge wq w e s1 = some t1 ∧
        processEdge wq w e s2 = some t2 ∧ StAgree t1 t2) := by
  have hag := ensuredState_agree wq w e s1 s2 h
  have hnarrow := edgeNarrow_eq_of_agree wq w e s1 s2 h
  rw [processEdge_eq, processEdge_eq, ← hnarrow]
  by_cases hc : (edgeNarrow wq w e s1).1.length = 0 ∨
      (edgeNarrow wq w e s1).2.length = 0
  · exact Or.inl ⟨by rw [if_pos hc], by rw [if_pos hc]⟩
  · refine Or.inr ⟨_, _, by rw [if_neg hc], by rw [if_neg hc], ?_⟩
    refine ⟨hag.1, fun n hn => ?_⟩
    simp only [updFn]
    by_cases hnc : n = e.childId
    · simp [hnc]
    · simp only [if_neg hnc]
      by_cases hnp : n = e.parentId
      · simp [hnp]
      · simp only [if_neg hnp]
        exact hag.2 n hn

theorem processEdge_computed_mono {W : Type}
    (wq : W → List (TreeElem W) → List Nat) (w : W) (e : PlanEdge W)
    (st t : ExecState) (h : processEdge wq w e st = some t) :
    (∀ n ∈ st.computed, n ∈ t.computed) ∧
      e.parentId ∈ t.computed ∧ e.childId ∈ t.computed := by
  have ht := processEdge_some_eq wq w e st t h
  subst ht
  exact ⟨fun n hn => ensuredState_computed_mono wq w e st n hn,
    ensuredState_parent_computed wq w e st,
    ensuredState_child_computed wq w e st⟩

theorem runEdges_agree {W : Type} (wq : W → List (TreeElem W) → List Nat)
    (w : W) (edges : List (PlanEdge W)) (s1 s2 : ExecState)
    (h : StAgree s1 s2) :
    (runEdges wq w edges s1 = none ∧ runEdges wq w edges s2 = none) ∨
      (∃ t1 t2, runEdges wq w edges s1 = some t1 ∧
        runEdges wq w edges s2 = some t2 ∧ StAgree t1 t2) := by
  induction edges generalizing s1 s2 with
  | nil => exact Or.inr ⟨s1, s2, rfl, rfl, h⟩
  | cons e rest ih =>
    rcases processEdge_agree wq w e s1 s2 h with ⟨h1, h2⟩ | ⟨t1, t2, h1, h2, hag⟩
    · exact Or.inl ⟨by simp [runEdges, h1], by simp [runEdges, h2]⟩
    · have := ih t1 t2 hag
      rcases this with ⟨hh1, hh2⟩ | ⟨u1, u2, hh1, hh2, hagg⟩
      · exact Or.inl ⟨by simp [runEdges, h1, hh1], by simp [runEdges, h2, hh2]⟩
      · exact Or.inr ⟨u1, u2, by simp [runEdges, h1, hh1],
          by simp [runEdges, h2, hh2], hagg⟩

theorem runEdges_computed_mono {W : Type}
    (wq : W → List (TreeElem W) → List Nat) (w : W)
    (edges : List (PlanEdge W)) (st t : ExecState)
    (h : runEdges wq w edges st = some t) :
    (∀ n ∈ st.computed, n ∈ t.computed) ∧
      ∀ e ∈ edges, e.parentId ∈ t.computed ∧ e.childId ∈ t.computed := by
  induction edges generalizing st with
  | nil =>
    simp only [runEdges, Option.some.injEq] at h
    subst h
    exact ⟨fun n hn => hn, by simp⟩
  | cons e rest ih =>
    simp only [runEdges] at h
    cases hpe : processEdge wq w e st with
    | none => rw [hpe] at h; exact absurd h (by simp)
    | some t1 =>
      rw [hpe] at h
      have hmono := processEdge_computed_mono wq w e st t1 hpe
      have hrest := ih t1 h
      refine ⟨fun n hn => hrest.1 n (hmono.1 n hn), ?_⟩
      intro e2 he2
      simp only [List.mem_cons] at he2
      rcases he2 with he2 | he2
      · subst he2
        exact ⟨hrest.1 _ hmono.2.1, hrest.1 _ hmono.2.2⟩
      · exact hrest.2 e2 he2

-- ---------------------------------------------------------------------
-- Claim C10

/-- Claim C10: a compiled plan is reusable without stale state. The
result of one execution does not depend on the candidate lists carried
over in the evaluation state from any earlier execution (including lists
left behind by an early exit): executions from two arbitrary carried
states — in particular a fresh state and the state right after a previous
run against the same world — give the same result, because
`queriesComputed` is cleared on entry and every node that contributes to
the result is re-queried before use. The hypothesis asks the root node to
be touched by some edge, which holds for every compiled plan (the first
filter tuple's parent is the root). -/
theorem c10_no_stale_state {W : Type}
    (wq : W → List (TreeElem W) → List Nat) (w : W) (plan : Plan W)
    (h : ∃ e ∈ plan.edges, plan.rootId = e.parentId ∨ plan.rootId = e.childId)
    (carried1 carried2 : Nat → List Nat) :
    execPlan wq w plan carried1 = execPlan wq w plan carried2 := by
  unfold execPlan
  have hinit : StAgree ⟨carried1, []⟩ ⟨carried2, []⟩ := ⟨rfl, by simp⟩
  rcases runEdges_agree wq w plan.edges _ _ hinit with
    ⟨h1, h2⟩ | ⟨t1, t2, h1, h2, hag⟩
  · rw [h1, h2]
  · rw [h1, h2]
    rcases h with ⟨e, he, hr⟩
    have hcomp := (runEdges_computed_mono wq w plan.edges _ t1 h1).2 e he
    rcases hr with hr | hr
    · exact hag.2 plan.rootId (hr ▸ hcomp.1)
    · exact hag.2 plan.rootId (hr ▸ hcomp.2)

/-- Witness for C10 at a concrete input: a one-edge plan executed from a
clean carried state and from a dirty one (every list pre-set to `[5]`),
with identical results. -/
theorem c10_no_stale_state_witness :
    (∃ e ∈ ([⟨fun _ _ _ => true, 0, [], 1, [], true⟩] : List (PlanEdge Unit)),
        0 = e.parentId ∨ 0 = e.childId) ∧
      execPlan (W := Unit) (fun _ _ => [1, 2]) ()
          ⟨[⟨fun _ _ _ => true, 0, [], 1, [], true⟩], 0⟩ (fun _ => []) =
        execPlan (W := Unit) (fun _ _ => [1, 2]) ()
          ⟨[⟨fun _ _ _ => true, 0, [], 1, [], true⟩], 0⟩ (fun _ => [5]) := by
  refine ⟨⟨⟨fun _ _ _ => true, 0, [], 1, [], true⟩, by simp, Or.inl rfl⟩, ?_⟩
  exact c10_no_stale_state (W := Unit) (fun _ _ => [1, 2]) ()
    ⟨[⟨fun _ _ _ => true, 0, [], 1, [], true⟩], 0⟩
    ⟨⟨fun _ _ _ => true, 0, [], 1, [], true⟩, by simp, Or.inl rfl⟩
    (fun _ => []) (fun _ => [5])

-- ---------------------------------------------------------------------
-- Compiler lemmas for specifications without filter nodes (claim C8)

theorem modifySlot_tuples {W : Type} (st : BuildSt W) (i : Nat)
    (f : Slot W → Slot W) : (modifySlot st i f).tuples = st.tuples := rfl

theorem modifySlot_cqo {W : Type} (st : BuildSt W) (i : Nat)
    (f : Slot W → Slot W) : (modifySlot st i f).cqo = st.cqo := rfl

theorem foldl_processElem_no_filter {W : Type} (elems : List (TreeElem W))
    (h : ∀ x ∈ elems, x.isFilterElem = false) (pSlot : Nat)
    (acc : BuildSt W × Bool) :
    (elems.foldl (processElem pSlot) acc).1.tuples = acc.1.tuples ∧
      (elems.foldl (processElem pSlot) acc).1.cqo = acc.1.cqo := by
  induction elems generalizing acc with
  | nil => exact ⟨rfl, rfl⟩
  | cons x rest ih =>
    have hx : x.isFilterElem = false := h x (List.mem_cons_self x rest)
    have hrest : ∀ y ∈ rest, y.isFilterElem = false :=
      fun y hy => h y (List.mem_cons_of_mem x hy)
    have hstep : processElem pSlot acc x =
        (modifySlot acc.1 pSlot
          (fun s => { s with components := s.components ++ [x] }), acc.2) := by
      cases x with
      | trait t => rfl
      | rawList es => rfl
      | filterNode c f q => simp [TreeElem.isFilterElem] at hx
    rw [List.foldl_cons, hstep]
    simpa using ih hrest _

theorem buildFrame_no_filter {W : Type} (query : List (TreeElem W))
    (h : ∀ x ∈ query, x.isFilterElem = false) (fnc : Bool)
    (parent? : Option Nat) (st : BuildSt W) :
    (buildFrame query fnc parent? st).1.tuples = st.tuples ∧
      (buildFrame query fnc parent? st).1.cqo = [] := by
  unfold buildFrame
  cases parent? with
  | none =>
    have hfold := foldl_processElem_no_filter query h
      ({ st with cqo := [] } : BuildSt W).slots.length
      ({ { st with cqo := [] } with
          nextId := ({ st with cqo := [] } : BuildSt W).nextId + 1,
          slots := ({ st with cqo := [] } : BuildSt W).slots ++
            [⟨({ st with cqo := [] } : BuildSt W).nextId, []⟩] }, false)
    simp only
    split
    · exact ⟨hfold.1, hfold.2⟩
    · split
      · exact ⟨hfold.1, hfold.2⟩
      · exact ⟨hfold.1, hfold.2⟩
  | some s =>
    have hfold := foldl_processElem_no_filter query h s
      (({ st with cqo := [] } : BuildSt W), false)
    simp only
    split
    · exact ⟨hfold.1, hfold.2⟩
    · split
      · exact ⟨hfold.1, hfold.2⟩
      · exact ⟨hfold.1, hfold.2⟩

theorem buildQueryRecursive_loop_done {W : Type} (fuel idx : Nat)
    (nnf : Bool) (st : BuildSt W) (h : st.cqo[idx]? = none) :
    buildQueryRecursive fuel (.loop idx nnf) st = some st := by
  cases fuel <;> simp [buildQueryRecursive, h]

theorem buildQueryRecursive_build_eq {W : Type} (f : Nat)
    (query : List (TreeElem W)) (fnc : Bool) (parent? : Option Nat)
    (st : BuildSt W) :
    buildQueryRecursive (f + 1) (.build query fnc parent?) st =
      buildQueryRecursive f (.loop 0 (buildFrame query fnc parent? st).2)
        (buildFrame query fnc parent? st).1 := rfl

-- ---------------------------------------------------------------------
-- Claim C8

/-- Claim C8: `createTreeQuery` fails with a specification error at
compile time — no callable query is produced — both on the empty
top-level specification (the `Tree query empty` throw) and on any
non-empty specification without a filter node (the `contains no filter`
throw, raised after the build because `filterWithTuple` stayed empty).
A specification with no filter node anywhere has in particular no
top-level filter node, which is what the hypothesis states; execution
never happens because the error is returned instead of a closure. -/
theorem c8_compile_time_spec_errors {W : Type} (fuel : Nat)
    (spec : List (TreeElem W)) (hne : spec ≠ [])
    (hnf : ∀ x ∈ spec, x.isFilterElem = false) :
    createTreeQuery (W := W) fuel [] = .error .emptyTree ∧
      createTreeQuery fuel spec = .error .noFilter := by
  constructor
  · rfl
  · unfold createTreeQuery
    have hlen : ¬ spec.length = 0 := by
      simpa [List.length_eq_zero] using hne
    rw [if_neg hlen, buildQueryRecursive_build_eq]
    have hframe := buildFrame_no_filter spec hnf false none (initBuildSt W)
    rw [buildQueryRecursive_loop_done fuel 0 _ _ (by rw [hframe.2]; rfl)]
    have htup : (buildFrame spec false none (initBuildSt W)).1.tuples = [] := by
      rw [hframe.1]
      rfl
    simp [htup]

/-- Witness for C8 at a concrete input: the empty specification and the
one-trait specification, both rejected at compile time for any fuel. -/
theorem c8_compile_time_spec_errors_witness :
    (([TreeElem.trait 0] : List (TreeElem Unit)) ≠ [] ∧
        ∀ x ∈ ([TreeElem.trait 0] : List (TreeElem Unit)),
          x.isFilterElem = false) ∧
      (createTreeQuery (W := Unit) 7 [] = .error .emptyTree ∧
        createTreeQuery (W := Unit) 7 [TreeElem.trait 0] = .error .noFilter) := by
  refine ⟨⟨by simp, by simp [TreeElem.isFilterElem]⟩, ?_⟩
  exact c8_compile_time_spec_errors (W := Unit) 7 [TreeElem.trait 0]
    (by simp) (by simp [TreeElem.isFilterElem])

-- ---------------------------------------------------------------------
-- Claim C9 (corrected)

/-- A specification whose first top-level element is a raw nested list,
followed by a filter node (so the no-filter check does not fire). -/
def c9TopLevelRawSpec : List (TreeElem Unit) :=
  [.rawList [], .filterNode [] (fun _ _ _ => true) []]

/-- Counterexample to claim C9 as stated: a top-level raw nested list is
NOT rejected by `createTreeQuery` — the element loop treats anything
without the `isFilter` marker as a component (source line 191), so the
raw list is pushed into the root node's component list and compilation
succeeds. Only `createTreeQueryFilter` invocations check for raw lists. -/
theorem c9_top_level_raw_list_accepted :
    (createTreeQuery 4 c9TopLevelRawSpec).isOk = true := rfl

theorem splitTraits_rawList_error {W : Type} (traits : List (TreeElem W))
    (h : ∃ x ∈ traits, x.isRawList = true) :
    splitTraits traits = .error .rawListArgument := by
  induction traits with
  | nil => simp at h
  | cons x rest ih =>
    cases x with
    | rawList es => rfl
    | trait t =>
      have hrest : ∃ y ∈ rest, y.isRawList = true := by
        rcases h with ⟨y, hy, hraw⟩
        rcases List.mem_cons.mp hy with h1 | h2
        · subst h1
          simp [TreeElem.isRawList] at hraw
        · exact ⟨y, h2, hraw⟩
      simp only [splitTraits, ih hrest]
      rfl
    | filterNode c f q =>
      have hrest : ∃ y ∈ rest, y.isRawList = true := by
        rcases h with ⟨y, hy, hraw⟩
        rcases List.mem_cons.mp hy with h1 | h2
        · subst h1
          simp [TreeElem.isRawList] at hraw
        · exact ⟨y, h2, hraw⟩
      simp only [splitTraits, ih hrest]
      rfl

/-- Claim C9 as amended: raw nested lists are rejected with a
specification error only by filter-node invocations —
`createTreeQueryFilter`'s returned constructor throws (at query
declaration time, before any execution) whenever any of its arguments is
a raw list; a raw list at the top level of `createTreeQuery` is not
detected and is silently treated as an attribute requirement
(`c9_top_level_raw_list_accepted`). -/
theorem c9_raw_list_in_filter_invocation_errors {W : Type} (cond : Cond W)
    (traits : List (TreeElem W)) (h : ∃ x ∈ traits, x.isRawList = true) :
    createTreeQueryFilter cond traits = .error .rawListArgument := by
  unfold createTreeQueryFilter
  rw [splitTraits_rawList_error traits h]
  rfl

/-- Witness for the amended C9 at a concrete input. -/
theorem c9_raw_list_in_filter_invocation_errors_witness :
    (∃ x ∈ ([.trait 0, .rawList []] : List (TreeElem Unit)),
        x.isRawList = true) ∧
      createTreeQueryFilter (W := Unit) (fun _ _ _ => true)
        [.trait 0, .rawList []] = .error .rawListArgument := by
  refine ⟨⟨.rawList [], by simp, rfl⟩, ?_⟩
  exact c9_raw_list_in_filter_invocation_errors (fun _ _ _ => true)
    [.trait 0, .rawList []] ⟨.rawList [], by simp, rfl⟩

-- ---------------------------------------------------------------------
-- Claim C3 (code bug)

/-- The number of filter nodes in a specification, at every depth: each
one should contribute exactly one filter edge to the compiled plan
according to the recursive-compilation contract. -/
def countFilterNodes {W : Type} : List (TreeElem W) → Nat
  | [] => 0
  | .filterNode _ _ q :: rest => 1 + countFilterNodes q + countFilterNodes rest
  | _ :: rest => countFilterNodes rest

/-- Two sibling filter nodes, each carrying one nested filter node:
`[F1(t1, G1(t2)), F2(t3, G2(t4))]`. Four filter nodes in total, so the
compiled plan should hold four filter edges. -/
def c3SiblingNestedSpec : List (TreeElem Unit) :=
  [.filterNode [.trait 1] (fun _ _ _ => true)
      [.filterNode [.trait 2] (fun _ _ _ => true) []],
    .filterNode [.trait 3] (fun _ _ _ => true)
      [.filterNode [.trait 4] (fun _ _ _ => true) []]]

/-- Claim C3 is what the code intends but not what it does: on a
specification with two sibling subtrees that both carry nested filter
nodes, the compiled plan holds only three edges — node 2 (the second
sibling's child node, requirements `[trait 3]`) has no outgoing edge, so
the second sibling's nested filter node `G2` contributed nothing. The
shared `childQueryObjects` array is cleared (`length = 0`, source line
146) by the first recursive call while the parent frame's live `for...of`
iteration (source lines 205-207) is still walking it, which ends that
iteration after the first entry. The specification requires one edge per
filter node: `countFilterNodes` counts four. -/
theorem c3_sibling_nested_filter_dropped :
    (createTreeQuery 10 c3SiblingNestedSpec).map
        (fun p => p.edges.map (fun e => (e.parentId, e.childId))) =
      .ok [(1, 4), (3, 2), (3, 1)] ∧
      countFilterNodes c3SiblingNestedSpec = 4 :=
  ⟨rfl, by simp [c3SiblingNestedSpec, countFilterNodes]⟩

-- ---------------------------------------------------------------------
-- The three-level chain query (claim C2)

/-- The chain specification `root→mid→leaf`: root requirements
`[trait tA]`, a filter node with predicate `P1` carrying `[trait tB]`
and one nested filter node with predicate `P2` carrying `[trait tC]`. -/
def chainSpec {W : Type} (tA tB tC : Nat) (P1 P2 : Cond W) :
    List (TreeElem W) :=
  [.trait tA,
    .filterNode [.trait tB] P1 [.filterNode [.trait tC] P2 []]]

/-- The plan `createTreeQuery` compiles the chain specification into:
edges in bottom-up order — first the mid→leaf edge (short-circuit set,
the leaf node has no children), then the root→mid edge (short-circuit
clear) — with root node id 0. -/
def chainPlan {W : Type} (tA tB tC : Nat) (P1 P2 : Cond W) : Plan W :=
  ⟨[⟨P2, 1, [.trait tB], 2, [.trait tC], true⟩,
    ⟨P1, 0, [.trait tA], 1, [.trait tB], false⟩], 0⟩

set_option maxHeartbeats 1600000 in
theorem chainBuild_eq {W : Type} (tA tB tC : Nat) (P1 P2 : Cond W) :
    buildQueryRecursive 11 (.build (chainSpec tA tB tC P1 P2) false none)
        (initBuildSt W) =
      some ⟨[⟨0, [.trait tA]⟩, ⟨1, [.trait tB]⟩, ⟨2, [.trait tC]⟩], 3,
        [⟨P1, 0, 1⟩, ⟨P2, 1, 2⟩], [1, 0, 2], []⟩ := rfl

set_option maxHeartbeats 800000 in
theorem chainQueryById_eq {W : Type} (tA tB tC : Nat) (P1 P2 : Cond W) :
    queryById (W := W) ⟨[⟨0, [.trait tA]⟩, ⟨1, [.trait tB]⟩, ⟨2, [.trait tC]⟩],
        3, [⟨P1, 0, 1⟩, ⟨P2, 1, 2⟩], [1, 0, 2], []⟩ =
      [(1, [.trait tB]), (0, [.trait tA]), (2, [.trait tC])] := rfl

set_option maxHeartbeats 800000 in
theorem chainStore_eq {W : Type} (tA tB tC : Nat) (P1 P2 : Cond W) :
    buildStore (W := W) ⟨[⟨0, [.trait tA]⟩, ⟨1, [.trait tB]⟩, ⟨2, [.trait tC]⟩],
        3, [⟨P1, 0, 1⟩, ⟨P2, 1, 2⟩], [1, 0, 2], []⟩
      [(1, [.trait tB]), (0, [.trait tA]), (2, [.trait tC])] =
      [(0, ⟨[.trait tA], [(P1, 1)]⟩), (1, ⟨[.trait tB], [(P2, 2)]⟩),
        (2, ⟨[.trait tC], []⟩)] := rfl

set_option maxHeartbeats 800000 in
theorem chainTree_eq {W : Type} (tA tB tC : Nat) (P1 P2 : Cond W) :
    mkTree (W := W) 11 [(0, ⟨[.trait tA], [(P1, 1)]⟩),
        (1, ⟨[.trait tB], [(P2, 2)]⟩), (2, ⟨[.trait tC], []⟩)] 0 =
      some (.mk 0 [.trait tA] (.cons P1 (.mk 1 [.trait tB]
        (.cons P2 (.mk 2 [.trait tC] .nil) .nil)) .nil)) := rfl

set_option maxHeartbeats 800000 in
theorem chainFlatten_eq {W : Type} (tA tB tC : Nat) (P1 P2 : Cond W) :
    edgesFlattened (W := W) (.mk 0 [.trait tA] (.cons P1 (.mk 1 [.trait tB]
        (.cons P2 (.mk 2 [.trait tC] .nil) .nil)) .nil)) =
      [⟨P2, 1, [.trait tB], 2, [.trait tC], true⟩,
        ⟨P1, 0, [.trait tA], 1, [.trait tB], false⟩] := rfl

/-- Compiling the chain specification yields exactly `chainPlan`. -/
theorem chainCompile {W : Type} (tA tB tC : Nat) (P1 P2 : Cond W) :
    createTreeQuery 10 (chainSpec tA tB tC P1 P2) =
      .ok (chainPlan tA tB tC P1 P2) := by
  unfold createTreeQuery
  rw [if_neg (by simp [chainSpec]), show (10 + 1 : Nat) = 11 from rfl,
    chainBuild_eq]
  simp only [chainQueryById_eq, chainStore_eq, chainTree_eq,
    chainFlatten_eq, chainPlan]
  rfl


theorem queryFilter_fst_ne_nil_snd {W : Type} (cond : Cond W)
    (ps cs : List Nat) (w : W) (skip : Bool)
    (h : (queryFilter cond ps cs w skip).1 ≠ []) :
    (queryFilter cond ps cs w skip).2 ≠ [] :=
  fun h2 => h ((queryFilter_fst_nil_iff_snd_nil cond ps cs w skip).mpr h2)

/-- Executing the compiled chain plan: a root entity is in the result iff
it holds the root requirements and the two existential links hold. -/
theorem exec_chainPlan_mem {W : Type}
    (wq : W → List (TreeElem W) → List Nat) (w : W) (P1 P2 : Cond W)
    (tA tB tC : Nat) (carried : Nat → List Nat) (r : Nat) :
    r ∈ execPlan wq w (chainPlan tA tB tC P1 P2) carried ↔
      (r ∈ wq w [.trait tA] ∧ ∃ m ∈ wq w [.trait tB], P1 r m w = true ∧
        ∃ l ∈ wq w [.trait tC], P2 m l w = true) := by
  have hmemM : ∀ m, m ∈ (queryFilter P2 (wq w [.trait tB])
      (wq w [.trait tC]) w true).1 ↔
      (m ∈ wq w [.trait tB] ∧ ∃ l ∈ wq w [.trait tC], P2 m l w = true) :=
    fun m => queryFilter_fst_mem P2 _ _ w true m
  have hnarrow2 : edgeNarrow wq w
      (⟨P2, 1, [.trait tB], 2, [.trait tC], true⟩ : PlanEdge W)
      ⟨carried, []⟩ =
      queryFilter P2 (wq w [.trait tB]) (wq w [.trait tC]) w true := rfl
  by_cases hM : (queryFilter P2 (wq w [.trait tB])
      (wq w [.trait tC]) w true).1 = []
  · have hpe2 : processEdge wq w
        (⟨P2, 1, [.trait tB], 2, [.trait tC], true⟩ : PlanEdge W)
        ⟨carried, []⟩ = none := by
      refine (processEdge_none_iff wq w _ _).mpr ?_
      rw [hnarrow2]
      exact Or.inl (by simp [hM])
    have hplan : execPlan wq w (chainPlan tA tB tC P1 P2) carried = [] := by
      unfold execPlan chainPlan
      simp [runEdges, hpe2]
    rw [hplan]
    simp only [List.not_mem_nil, false_iff]
    rintro ⟨hA, m, hmB, hP, l, hlC, hPl⟩
    have hmM := (hmemM m).mpr ⟨hmB, l, hlC, hPl⟩
    rw [hM] at hmM
    exact absurd hmM (List.not_mem_nil m)
  · have hMc : (queryFilter P2 (wq w [.trait tB])
        (wq w [.trait tC]) w true).2 ≠ [] :=
      queryFilter_fst_ne_nil_snd P2 _ _ w true hM
    have hcond2 : ¬((queryFilter P2 (wq w [.trait tB])
        (wq w [.trait tC]) w true).1.length = 0 ∨
        (queryFilter P2 (wq w [.trait tB])
          (wq w [.trait tC]) w true).2.length = 0) := by
      rintro (h | h)
      · exact hM (by simpa [List.length_eq_zero] using h)
      · exact hMc (by simpa [List.length_eq_zero] using h)
    have hpe2 : processEdge wq w
        (⟨P2, 1, [.trait tB], 2, [.trait tC], true⟩ : PlanEdge W)
        ⟨carried, []⟩ =
        some ⟨updFn (updFn (updFn (updFn carried 1 (wq w [.trait tB])) 2
            (wq w [.trait tC])) 1 (queryFilter P2 (wq w [.trait tB])
            (wq w [.trait tC]) w true).1) 2 (queryFilter P2
            (wq w [.trait tB]) (wq w [.trait tC]) w true).2, [2, 1]⟩ := by
      rw [processEdge_eq, hnarrow2, if_neg hcond2]
      rfl
    have hnarrow1 : edgeNarrow wq w
        (⟨P1, 0, [.trait tA], 1, [.trait tB], false⟩ : PlanEdge W)
        ⟨updFn (updFn (updFn (updFn carried 1 (wq w [.trait tB])) 2
            (wq w [.trait tC])) 1 (queryFilter P2 (wq w [.trait tB])
            (wq w [.trait tC]) w true).1) 2 (queryFilter P2
            (wq w [.trait tB]) (wq w [.trait tC]) w true).2, [2, 1]⟩ =
        queryFilter P1 (wq w [.trait tA]) (queryFilter P2
          (wq w [.trait tB]) (wq w [.trait tC]) w true).1 w false := rfl
    by_cases hR : (queryFilter P1 (wq w [.trait tA]) (queryFilter P2
        (wq w [.trait tB]) (wq w [.trait tC]) w true).1 w false).1 = []
    · have hpe1 : processEdge wq w
          (⟨P1, 0, [.trait tA], 1, [.trait tB], false⟩ : PlanEdge W)
          ⟨updFn (updFn (updFn (updFn carried 1 (wq w [.trait tB])) 2
              (wq w [.trait tC])) 1 (queryFilter P2 (wq w [.trait tB])
              (wq w [.trait tC]) w true).1) 2 (queryFilter P2
              (wq w [.trait tB]) (wq w [.trait tC]) w true).2, [2, 1]⟩ =
          none := by
        refine (processEdge_none_iff wq w _ _).mpr ?_
        rw [hnarrow1]
        exact Or.inl (by simp [hR])
      have hplan : execPlan wq w (chainPlan tA tB tC P1 P2) carried = [] := by
        unfold execPlan chainPlan
        simp [runEdges, hpe2, hpe1]
      rw [hplan]
      simp only [List.not_mem_nil, false_iff]
      rintro ⟨hA, m, hmB, hP, l, hlC, hPl⟩
      have hmM := (hmemM m).mpr ⟨hmB, l, hlC, hPl⟩
      have hrR := (queryFilter_fst_mem P1 (wq w [.trait tA]) _ w false r).mpr
        ⟨hA, m, hmM, hP⟩
      rw [hR] at hrR
      exact absurd hrR (List.not_mem_nil r)
    · have hR2 : (queryFilter P1 (wq w [.trait tA]) (queryFilter P2
          (wq w [.trait tB]) (wq w [.trait tC]) w true).1 w false).2 ≠ [] :=
        queryFilter_fst_ne_nil_snd P1 _ _ w false hR
      have hcond1 : ¬((queryFilter P1 (wq w [.trait tA]) (queryFilter P2
          (wq w [.trait tB]) (wq w [.trait tC]) w true).1 w false).1.length = 0 ∨
          (queryFilter P1 (wq w [.trait tA]) (queryFilter P2
            (wq w [.trait tB]) (wq w [.trait tC]) w true).1 w
            false).2.length = 0) := by
        rintro (h | h)
        · exact hR (by simpa [List.length_eq_zero] using h)
        · exact hR2 (by simpa [List.length_eq_zero] using h)
      have hpe1 : processEdge wq w
          (⟨P1, 0, [.trait tA], 1, [.trait tB], false⟩ : PlanEdge W)
          ⟨updFn (updFn (updFn (updFn carried 1 (wq w [.trait tB])) 2
              (wq w [.trait tC])) 1 (queryFilter P2 (wq w [.trait tB])
              (wq w [.trait tC]) w true).1) 2 (queryFilter P2
              (wq w [.trait tB]) (wq w [.trait tC]) w true).2, [2, 1]⟩ =
          some ⟨updFn (updFn (updFn (updFn (updFn (updFn (updFn carried 1
              (wq w [.trait tB])) 2 (wq w [.trait tC])) 1
              (queryFilter P2 (wq w [.trait tB]) (wq w [.trait tC]) w
                true).1) 2 (queryFilter P2 (wq w [.trait tB])
              (wq w [.trait tC]) w true).2) 0 (wq w [.trait tA]))
              0 (queryFilter P1
              (wq w [.trait tA]) (queryFilter P2 (wq w [.trait tB])
              (wq w [.trait tC]) w true).1 w false).1) 1 (queryFilter P1
              (wq w [.trait tA]) (queryFilter P2 (wq w [.trait tB])
              (wq w [.trait tC]) w true).1 w false).2, [0, 2, 1]⟩ := by
        rw [processEdge_eq, hnarrow1, if_neg hcond1]
        rfl
      have hplan : execPlan wq w (chainPlan tA tB tC P1 P2) carried =
          (queryFilter P1 (wq w [.trait tA]) (queryFilter P2
            (wq w [.trait tB]) (wq w [.trait tC]) w true).1 w false).1 := by
        unfold execPlan chainPlan
        simp only [runEdges, hpe2, hpe1]
        rfl
      rw [hplan]
      rw [queryFilter_fst_mem P1 (wq w [.trait tA]) _ w false r]
      constructor
      · rintro ⟨hA, m, hmM, hP⟩
        have hm := (hmemM m).mp hmM
        exact ⟨hA, m, hm.1, hP, hm.2⟩
      · rintro ⟨hA, m, hmB, hP, l, hlC, hPl⟩
        exact ⟨hA, m, (hmemM m).mpr ⟨hmB, l, hlC, hPl⟩, hP⟩

-- ---------------------------------------------------------------------
-- Claim C2

/-- Claim C2: for the compiled three-level chain query root→mid→leaf with
predicates `P1` (root,mid) and `P2` (mid,leaf), executing against any
world returns a root entity `r` iff `r` holds the root attribute
requirements (is in the Attribute Store result for them) and there is an
entity `m` holding the mid-level requirements with `P1 r m` true and an
entity `l` holding the leaf-level requirements with `P2 m l` true.
Stated for any carried evaluation state and any world function. -/
theorem c2_chain_composition {W : Type} (tA tB tC : Nat) (P1 P2 : Cond W)
    (wq : W → List (TreeElem W) → List Nat) (w : W)
    (carried : Nat → List Nat) (plan : Plan W)
    (h : createTreeQuery 10 (chainSpec tA tB tC P1 P2) = Except.ok plan)
    (r : Nat) :
    r ∈ execPlan wq w plan carried ↔
      (r ∈ wq w [.trait tA] ∧ ∃ m ∈ wq w [.trait tB], P1 r m w = true ∧
        ∃ l ∈ wq w [.trait tC], P2 m l w = true) := by
  rw [chainCompile tA tB tC P1 P2] at h
  have hplan : plan = chainPlan tA tB tC P1 P2 :=
    (Except.ok.injEq _ _ ▸ h).symm
  subst hplan
  exact exec_chainPlan_mem wq w P1 P2 tA tB tC carried r

/-- World function for the C2 witness: entities 10 and 20 hold trait 1,
15 and 25 hold trait 2, 18 and 30 hold trait 3. -/
def c2WitnessWq : Unit → List (TreeElem Unit) → List Nat := fun _ reqs =>
  match reqs with
  | [.trait 1] => [10, 20]
  | [.trait 2] => [15, 25]
  | [.trait 3] => [18, 30]
  | _ => []

/-- Witness for C2 at a concrete input: the chain query with the
less-than predicate on both links; entity 10 is in the result because
10 < 15 < 18. -/
theorem c2_chain_composition_witness :
    createTreeQuery 10 (chainSpec (W := Unit) 1 2 3
        (fun p m _ => decide (p < m)) (fun m l _ => decide (m < l))) =
      Except.ok (chainPlan 1 2 3 (fun p m _ => decide (p < m))
        (fun m l _ => decide (m < l))) ∧
      (10 ∈ execPlan c2WitnessWq () (chainPlan 1 2 3
          (fun p m _ => decide (p < m)) (fun m l _ => decide (m < l)))
          (fun _ => []) ↔
        (10 ∈ c2WitnessWq () [.trait 1] ∧
          ∃ m ∈ c2WitnessWq () [.trait 2], decide (10 < m) = true ∧
            ∃ l ∈ c2WitnessWq () [.trait 3], decide (m < l) = true)) := by
  refine ⟨chainCompile 1 2 3 _ _, ?_⟩
  exact c2_chain_composition 1 2 3 (fun p m _ => decide (p < m))
    (fun m l _ => decide (m < l)) c2WitnessWq () (fun _ => [])
    (chainPlan 1 2 3 (fun p m _ => decide (p < m))
      (fun m l _ => decide (m < l))) (chainCompile 1 2 3 _ _) 10

-- ---------------------------------------------------------------------
-- Structural characterisation of the flattener (claim C4)

mutual
/-- The edges the stack loop records while it processes one tree: the
direct child edges first, then the subtrees, last child first. -/
def dfsTree {W : Type} : EvalTree W → List (PlanEdge W)
  | .mk i r cs => childEdgesOf (.mk i r cs) ++ dfsForestRev cs

/-- The edges the stack loop records for a forest that was pushed onto
the stack: the last child's subtree is popped first. -/
def dfsForestRev {W : Type} : EvalForest W → List (PlanEdge W)
  | .nil => []
  | .cons _ t rest => dfsForestRev rest ++ dfsTree t
end

mutual
/-- All `(edge, child subtree)` pairs anywhere in a tree. -/
def edgePairsT {W : Type} : EvalTree W → List (PlanEdge W × EvalTree W)
  | .mk i r cs => forestPairs i r cs ++ edgePairsF cs

/-- All `(edge, child subtree)` pairs anywhere below a forest. -/
def edgePairsF {W : Type} : EvalForest W → List (PlanEdge W × EvalTree W)
  | .nil => []
  | .cons _ t rest => edgePairsT t ++ edgePairsF rest
end

/-- All edges anywhere in a tree. -/
def edgeList {W : Type} (t : EvalTree W) : List (PlanEdge W) :=
  (edgePairsT t).map Prod.fst

/-- All edges anywhere below a forest. -/
def edgeListF {W : Type} (cs : EvalForest W) : List (PlanEdge W) :=
  (edgePairsF cs).map Prod.fst

/-- The edges the stack loop records for a whole stack of trees. -/
def dfsStack {W : Type} : List (EvalTree W) → List (PlanEdge W)
  | [] => []
  | t :: rest => dfsTree t ++ dfsStack rest

theorem stackSize_append {W : Type} (a b : List (EvalTree W)) :
    stackSize (a ++ b) = stackSize a + stackSize b := by
  induction a with
  | nil => simp [stackSize]
  | cons t r ih =>
    show treeSize t + stackSize (r ++ b) =
      treeSize t + stackSize r + stackSize b
    rw [ih]
    omega

theorem stackSize_reverse {W : Type} (a : List (EvalTree W)) :
    stackSize a.reverse = stackSize a := by
  induction a with
  | nil => rfl
  | cons t r ih =>
    simp only [List.reverse_cons, stackSize_append, ih, stackSize]
    omega

theorem stackSize_forestTrees {W : Type} :
    ∀ (cs : EvalForest W), stackSize (forestTrees cs) = forestSize cs
  | .nil => rfl
  | .cons c t rest => by
    simp only [forestTrees, stackSize, forestSize,
      stackSize_forestTrees rest]

theorem dfsStack_append {W : Type} (a b : List (EvalTree W)) :
    dfsStack (a ++ b) = dfsStack a ++ dfsStack b := by
  induction a with
  | nil => rfl
  | cons t r ih => simp [dfsStack, ih]

theorem dfsStack_reverse_forestTrees {W : Type} :
    ∀ (cs : EvalForest W),
      dfsStack (forestTrees cs).reverse = dfsForestRev cs
  | .nil => rfl
  | .cons c t rest => by
    simp only [forestTrees, List.reverse_cons, dfsStack_append,
      dfsStack_reverse_forestTrees rest, dfsForestRev, dfsStack]
    simp

theorem flattenLoop_eq_dfsStack {W : Type} :
    ∀ (fuel : Nat) (ts : List (EvalTree W)) (acc : List (PlanEdge W)),
      stackSize ts ≤ fuel → flattenLoop fuel ts acc = acc ++ dfsStack ts := by
  intro fuel
  induction fuel with
  | zero =>
    intro ts acc h
    cases ts with
    | nil => simp [flattenLoop, dfsStack]
    | cons t rest =>
      exfalso
      cases t with
      | mk i r cs => simp [stackSize, treeSize] at h
  | succ f ih =>
    intro ts acc h
    cases ts with
    | nil => simp [flattenLoop, dfsStack]
    | cons t rest =>
      cases t with
      | mk i r cs =>
        have hsize : stackSize ((forestTrees
            ((EvalTree.mk i r cs : EvalTree W).nchildren)).reverse ++ rest) ≤
            f := by
          rw [stackSize_append, stackSize_reverse, stackSize_forestTrees]
          simp only [EvalTree.nchildren]
          simp [stackSize, treeSize] at h
          omega
        rw [flattenLoop, ih _ _ hsize]
        simp only [EvalTree.nchildren, dfsStack_append,
          dfsStack_reverse_forestTrees]
        simp [dfsStack, dfsTree, EvalTree.nchildren, List.append_assoc]

theorem edgesFlattened_eq_dfsTree {W : Type} (t : EvalTree W) :
    edgesFlattened t = (dfsTree t).reverse := by
  unfold edgesFlattened
  rw [flattenLoop_eq_dfsStack (treeSize t) [t] []
    (by simp [stackSize])]
  simp [dfsStack]

mutual
theorem mem_dfsTree_iff {W : Type} :
    ∀ (t : EvalTree W) (x : PlanEdge W), x ∈ dfsTree t ↔ x ∈ edgeList t
  | .mk i r cs, x => by
    simp only [dfsTree, edgeList, edgePairsT, List.map_append,
      List.mem_append]
    rw [mem_dfsForestRev_iff cs x]
    exact or_congr Iff.rfl Iff.rfl

theorem mem_dfsForestRev_iff {W : Type} :
    ∀ (cs : EvalForest W) (x : PlanEdge W),
      x ∈ dfsForestRev cs ↔ x ∈ edgeListF cs
  | .nil, x => by simp [dfsForestRev, edgeListF, edgePairsF]
  | .cons c0 t rest, x => by
    simp only [dfsForestRev, edgeListF, edgePairsF, List.map_append,
      List.mem_append]
    rw [mem_dfsTree_iff t x, mem_dfsForestRev_iff rest x]
    exact Or.comm
end

theorem forestPairs_mem_trees {W : Type} :
    ∀ (cs : EvalForest W) (pid : Nat) (preqs : List (TreeElem W))
      (e : PlanEdge W) (c : EvalTree W),
      (e, c) ∈ forestPairs pid preqs cs → c ∈ forestTrees cs
  | .nil, _, _, e, c, h => by simp [forestPairs] at h
  | .cons c0 t rest, pid, preqs, e, c, h => by
    simp only [forestPairs, List.mem_cons] at h
    simp only [forestTrees, List.mem_cons]
    rcases h with h | h
    · exact Or.inl (congrArg Prod.snd h)
    · exact Or.inr (forestPairs_mem_trees rest pid preqs e c h)

theorem dfs_mem_of_mem_forest {W : Type} :
    ∀ (cs : EvalForest W) (c : EvalTree W), c ∈ forestTrees cs →
      ∀ x ∈ dfsTree c, x ∈ dfsForestRev cs
  | .nil, c, hc => by simp [forestTrees] at hc
  | .cons c0 t rest, c, hc => by
    simp only [forestTrees, List.mem_cons] at hc
    intro x hx
    simp only [dfsForestRev, List.mem_append]
    rcases hc with h1 | h2
    · subst h1
      exact Or.inr hx
    · exact Or.inl (dfs_mem_of_mem_forest rest c h2 x hx)

mutual
theorem dfs_decomp_tree {W : Type} :
    ∀ (t : EvalTree W) (e : PlanEdge W) (c : EvalTree W),
      (e, c) ∈ edgePairsT t →
      ∃ l1 l2, dfsTree t = l1 ++ e :: l2 ∧ ∀ x ∈ edgeList c, x ∈ l2
  | .mk i r cs, e, c, h => by
    simp only [edgePairsT, List.mem_append] at h
    rcases h with h | h
    · obtain ⟨s, t2, hsplit⟩ := List.append_of_mem h
      have hchild : childEdgesOf (.mk i r cs : EvalTree W) =
          s.map Prod.fst ++ e :: t2.map Prod.fst := by
        simp [childEdgesOf, EvalTree.nid, EvalTree.nreqs,
          EvalTree.nchildren, hsplit]
      have hcmem : c ∈ forestTrees cs := forestPairs_mem_trees cs i r e c h
      refine ⟨s.map Prod.fst, t2.map Prod.fst ++ dfsForestRev cs, ?_, ?_⟩
      · simp [dfsTree, hchild]
      · intro x hx
        have hx2 : x ∈ dfsTree c := (mem_dfsTree_iff c x).mpr hx
        exact List.mem_append_right _
          (dfs_mem_of_mem_forest cs c hcmem x hx2)
    · obtain ⟨l1, l2, hsp, hsub⟩ := dfs_decomp_forest cs e c h
      exact ⟨childEdgesOf (.mk i r cs) ++ l1, l2,
        by simp [dfsTree, hsp], hsub⟩

theorem dfs_decomp_forest {W : Type} :
    ∀ (cs : EvalForest W) (e : PlanEdge W) (c : EvalTree W),
      (e, c) ∈ edgePairsF cs →
      ∃ l1 l2, dfsForestRev cs = l1 ++ e :: l2 ∧ ∀ x ∈ edgeList c, x ∈ l2
  | .nil, e, c, h => by simp [edgePairsF] at h
  | .cons c0 t rest, e, c, h => by
    simp only [edgePairsF, List.mem_append] at h
    rcases h with h | h
    · obtain ⟨l1, l2, hsp, hsub⟩ := dfs_decomp_tree t e c h
      exact ⟨dfsForestRev rest ++ l1, l2, by simp [dfsForestRev, hsp], hsub⟩
    · obtain ⟨l1, l2, hsp, hsub⟩ := dfs_decomp_forest rest e c h
      exact ⟨l1, l2 ++ dfsTree t, by simp [dfsForestRev, hsp],
        fun x hx => List.mem_append_left _ (hsub x hx)⟩
end

theorem nodup_getElem?_inj {α : Type} (l : List α) (hn : l.Nodup) (a : α)
    (i j : Nat) (hi : l[i]? = some a) (hj : l[j]? = some a) : i = j := by
  obtain ⟨hilen, hival⟩ := List.getElem?_eq_some.mp hi
  obtain ⟨hjlen, hjval⟩ := List.getElem?_eq_some.mp hj
  exact (List.Nodup.getElem_inj_iff hn).mp (by rw [hival, hjval])

-- ---------------------------------------------------------------------
-- Claim C4

/-- Claim C4: the flattened edge list baked into a compiled plan is
`edgesFlattened`, the depth-first stack traversal from the root recording
edges in visitation order followed by a full reversal (the first
conjunct restates its definition); and the result is bottom-up: for an
edge `e1` attached to subtree `c` anywhere in the tree (ancestor side)
and any edge `e2` inside `c` (descendant side) — the two lie on one path
from the root — every position of `e2` in the flattened list comes
strictly before every position of `e1` (positions are unique under the
no-duplicates hypothesis, which holds for compiled plans since every
child node is fresh). The list is computed once from the tree at compile
time: `createTreeQuery` stores `edgesFlattened t` in the plan. -/
theorem c4_edgesFlattened_bottom_up {W : Type} (t : EvalTree W)
    (e1 e2 : PlanEdge W) (c : EvalTree W)
    (hnodup : (edgesFlattened t).Nodup)
    (h1 : (e1, c) ∈ edgePairsT t) (h2 : e2 ∈ edgeList c) :
    edgesFlattened t = (flattenLoop (treeSize t) [t] []).reverse ∧
      ∀ (i j : Nat), (edgesFlattened t)[i]? = some e2 →
        (edgesFlattened t)[j]? = some e1 → i < j := by
  refine ⟨rfl, ?_⟩
  obtain ⟨l1, l2, hsp, hsub⟩ := dfs_decomp_tree t e1 c h1
  have hflat : edgesFlattened t = l2.reverse ++ e1 :: l1.reverse := by
    rw [edgesFlattened_eq_dfsTree, hsp]
    simp
  have he2l2 : e2 ∈ l2.reverse := List.mem_reverse.mpr (hsub e2 h2)
  obtain ⟨i0, hi0len, hi0⟩ := List.getElem_of_mem he2l2
  have hi2 : (edgesFlattened t)[i0]? = some e2 := by
    rw [hflat, List.getElem?_append]
    rw [if_pos hi0len, List.getElem?_eq_getElem hi0len, hi0]
  have hj1 : (edgesFlattened t)[l2.reverse.length]? = some e1 := by
    rw [hflat, List.getElem?_append]
    simp
  intro i j hi hj
  have hieq : i = i0 :=
    nodup_getElem?_inj _ hnodup e2 i i0 hi hi2
  have hjeq : j = l2.reverse.length :=
    nodup_getElem?_inj _ hnodup e1 j l2.reverse.length hj hj1
  rw [hieq, hjeq]
  exact hi0len

/-- The witness tree for C4: root 0 with one child 1, which has one
child 2 (a two-edge chain). -/
def c4WitnessTree : EvalTree Unit :=
  .mk 0 [] (.cons (fun _ _ _ => true)
    (.mk 1 [] (.cons (fun _ _ _ => true) (.mk 2 [] .nil) .nil)) .nil)

/-- The subtree of `c4WitnessTree` below the root edge. -/
def c4WitnessSub : EvalTree Unit :=
  .mk 1 [] (.cons (fun _ _ _ => true) (.mk 2 [] .nil) .nil)

/-- The ancestor-side edge of `c4WitnessTree` (root to node 1). -/
def c4WitnessE1 : PlanEdge Unit :=
  ⟨fun _ _ _ => true, 0, [], 1, [], false⟩

/-- The descendant-side edge of `c4WitnessTree` (node 1 to node 2). -/
def c4WitnessE2 : PlanEdge Unit :=
  ⟨fun _ _ _ => true, 1, [], 2, [], true⟩

/-- Witness for C4 at the concrete two-edge chain tree: the flattened
list is `[e2, e1]` and the descendant edge comes first. -/
theorem c4_edgesFlattened_bottom_up_witness :
    ((edgesFlattened c4WitnessTree).Nodup ∧
      (c4WitnessE1, c4WitnessSub) ∈ edgePairsT c4WitnessTree ∧
      c4WitnessE2 ∈ edgeList c4WitnessSub) ∧
      (edgesFlattened c4WitnessTree =
          (flattenLoop (treeSize c4WitnessTree) [c4WitnessTree] []).reverse ∧
        ∀ (i j : Nat), (edgesFlattened c4WitnessTree)[i]? = some c4WitnessE2 →
          (edgesFlattened c4WitnessTree)[j]? = some c4WitnessE1 → i < j) := by
  have hnodup : (edgesFlattened c4WitnessTree).Nodup := by
    have hlist : edgesFlattened c4WitnessTree = [c4WitnessE2, c4WitnessE1] :=
      rfl
    rw [hlist]
    simp only [List.nodup_cons, List.mem_singleton, List.not_mem_nil,
      not_false_iff, List.nodup_nil, and_true]
    intro hcontra
    have := congrArg PlanEdge.parentId hcontra
    simp [c4WitnessE1, c4WitnessE2] at this
  have h1 : (c4WitnessE1, c4WitnessSub) ∈ edgePairsT c4WitnessTree :=
    List.mem_cons_self _ _
  have h2 : c4WitnessE2 ∈ edgeList c4WitnessSub :=
    List.mem_cons_self _ _
  exact ⟨⟨hnodup, h1, h2⟩,
    c4_edgesFlattened_bottom_up c4WitnessTree c4WitnessE1 c4WitnessE2
      c4WitnessSub hnodup h1 h2⟩
